import Mathlib

/-!
Verification of the `Num` value type of `src/calc/number.rs` (motorcalc).

The Rust code works on `f64` payloads.  The shallow embedding models the
payload as `ℚ` with exact arithmetic (every finite double is a rational
number); `f64::fract`, `f64::round`, truncating casts and decimal
formatting are modelled exactly over `ℚ`.  Fallible operations
(`panic!`, failing `str::parse`) are modelled with `Option`.

Mathlib's arithmetic on `ℚ` (`Rat.add`, `Rat.mul`, ...) is marked
irreducible, so the kernel cannot evaluate it.  The embedding therefore
computes through `mkRat` / `Rat.divInt` based helpers (`qadd`, `qmul`,
...), each accompanied by a lemma identifying it with the corresponding
Mathlib operation.
-/

namespace Motorcalc

/-- Kernel-computable embedding of a natural number into `ℚ`. -/
def qofNat (n : ℕ) : ℚ := mkRat n 1

/-- Kernel-computable embedding of an integer into `ℚ`. -/
def qofInt (n : ℤ) : ℚ := mkRat n 1

/-- Kernel-computable addition on `ℚ`. -/
def qadd (a b : ℚ) : ℚ := mkRat (a.num * b.den + b.num * a.den) (a.den * b.den)

/-- Kernel-computable negation on `ℚ`. -/
def qneg (a : ℚ) : ℚ := mkRat (-a.num) a.den

/-- Kernel-computable subtraction on `ℚ`. -/
def qsub (a b : ℚ) : ℚ := qadd a (qneg b)

/-- Kernel-computable multiplication on `ℚ`. -/
def qmul (a b : ℚ) : ℚ := mkRat (a.num * b.num) (a.den * b.den)

/-- Kernel-computable division on `ℚ` (total, `x / 0 = 0` as in Mathlib). -/
def qdiv (a b : ℚ) : ℚ := Rat.divInt (a.num * b.den) (a.den * b.num)

/-- Kernel-computable absolute value on `ℚ`. -/
def qabs (a : ℚ) : ℚ := if a < 0 then qneg a else a

/-- Kernel-computable power of ten, `pow10 e = 10 ^ e` (as `ℚ`). -/
def pow10 : ℤ → ℚ
  | Int.ofNat n => mkRat ((10 : ℤ) ^ n) 1
  | Int.negSucc n => mkRat 1 (10 ^ (n + 1))

/-- Kernel-computable floor on `ℚ`. -/
def qfloor (q : ℚ) : ℤ := q.num / q.den

/-- Truncation toward zero, the semantics of Rust `f64::trunc`. -/
def qtrunc (q : ℚ) : ℤ :=
  if q.num < 0 then -((q.num.natAbs / q.den : ℕ) : ℤ) else ((q.num.natAbs / q.den : ℕ) : ℤ)

/-- Rust `f64::fract`: `x - x.trunc()` (negative for negative arguments). -/
def qfract (q : ℚ) : ℚ := qsub q (qofInt (qtrunc q))

/-- Rust `f64::round`: round half away from zero. -/
def qround (q : ℚ) : ℤ :=
  if q < 0 then -(qfloor (qadd (qneg q) (mkRat 1 2))) else qfloor (qadd q (mkRat 1 2))

/-- Base-10 digit count of a natural number, fuel-driven
(`digits10 fuel n` is correct whenever `n ≤ fuel`). -/
def digits10 : ℕ → ℕ → ℕ
  | 0, _ => 1
  | fuel + 1, n => if n < 10 then 1 else digits10 fuel (n / 10) + 1

/-- Most-significant-first decimal digits of a natural number, fuel-driven
(`natDigitsAux fuel n` is correct whenever `n ≤ fuel`). -/
def natDigitsAux : ℕ → ℕ → List Char
  | 0, n => [Nat.digitChar n]
  | fuel + 1, n =>
    if n < 10 then [Nat.digitChar n]
    else natDigitsAux fuel (n / 10) ++ [Nat.digitChar (n % 10)]

/-- Decimal rendering of a natural number (no leading zeros, `0 ↦ "0"`). -/
def natDigits (n : ℕ) : List Char := natDigitsAux n n

/-- Decimal rendering of an integer, a leading `-` for negatives. -/
def intDigits (n : ℤ) : List Char :=
  if n < 0 then '-' :: natDigits n.natAbs else natDigits n.natAbs

/-- Numeric value of a digit string (each char assumed to be a digit). -/
def digitsVal (l : List Char) : ℕ := l.foldl (fun a c => 10 * a + (c.toNat - 48)) 0

/-- Exactly `p` decimal digits of `n` (assumes `n < 10 ^ p`), most
significant first, zero padded on the left. -/
def padDigits : ℕ → ℕ → List Char
  | 0, _ => []
  | p + 1, n => Nat.digitChar (n / 10 ^ p) :: padDigits p (n % 10 ^ p)

/-- Round a nonnegative rational to a natural number, ties to even — the
rounding used by Rust's fixed-precision float formatting. -/
def halfEvenRound (x : ℚ) : ℕ :=
  let f := (qfloor x).toNat
  let r := qsub x (qofNat f)
  if r < mkRat 1 2 then f
  else if mkRat 1 2 < r then f + 1
  else if f % 2 = 0 then f else f + 1

/-- Rust `format!("{:.prec$}", x)` for a finite float `x`: sign, integer
digits, and exactly `prec` fractional digits, ties rounded to even. -/
def formatFixed (x : ℚ) (prec : ℕ) : List Char :=
  let n := halfEvenRound (qmul (qabs x) (pow10 (prec : ℤ)))
  (if x < 0 then ['-'] else []) ++ natDigits (n / 10 ^ prec) ++
    (if prec = 0 then [] else '.' :: padDigits prec (n % 10 ^ prec))

/-- The metric prefix table `METRIC_PREFIXES` (number.rs:4-15). -/
def METRIC_PREFIXES : List (String × ℤ) :=
  [("f", -15), ("p", -12), ("n", -9), ("µu", -6), ("m", -3),
   ("k", 3), ("M", 6), ("G", 9), ("T", 12), ("P", 15)]

/-- `enum Num` (number.rs:19-23): an input, an output, or no number at
all; the `f64` payload is modelled as `ℚ`. -/
inductive Num where
  | In : ℚ → Num
  | Out : ℚ → Num
  | none : Num
deriving DecidableEq

/-- `Num::is_input` (number.rs:27-32). -/
def Num.is_input : Num → Bool
  | .In _ => true
  | _ => false

/-- `Num::is_output` (number.rs:35-40). -/
def Num.is_output : Num → Bool
  | .Out _ => true
  | _ => false

/-- `Num::is_none` (number.rs:43-48). -/
def Num.is_none : Num → Bool
  | .none => true
  | _ => false

/-- `Num::is_num` (number.rs:51-57). -/
def Num.is_num : Num → Bool
  | .In _ => true
  | .Out _ => true
  | .none => false

/-- `Num::as_option` (number.rs:60-66). -/
def Num.as_option : Num → Option ℚ
  | .In v => some v
  | .Out v => some v
  | .none => Option.none

/-- `Num::num` (number.rs:69-75): returns the payload; the `panic!` on
`Num::None` is modelled as `Option.none`. -/
def Num.num : Num → Option ℚ
  | .In v => some v
  | .Out v => some v
  | .none => Option.none

/-- `impl Add<f64> for Num` (number.rs:176-186). -/
def Num.addF : Num → ℚ → Num
  | .In v, rhs => .In (qadd v rhs)
  | .Out v, rhs => .Out (qadd v rhs)
  | .none, _ => .none

/-- `impl Sub<f64> for Num` (number.rs:202-212). -/
def Num.subF : Num → ℚ → Num
  | .In v, rhs => .In (qsub v rhs)
  | .Out v, rhs => .Out (qsub v rhs)
  | .none, _ => .none

/-- `impl Mul<f64> for Num` (number.rs:228-238). -/
def Num.mulF : Num → ℚ → Num
  | .In v, rhs => .In (qmul v rhs)
  | .Out v, rhs => .Out (qmul v rhs)
  | .none, _ => .none

/-- `impl Div<f64> for Num` (number.rs:254-264). -/
def Num.divF : Num → ℚ → Num
  | .In v, rhs => .In (qdiv v rhs)
  | .Out v, rhs => .Out (qdiv v rhs)
  | .none, _ => .none

/-- `impl Add<Num> for Num` (number.rs:188-200): early `Num::None` when
the right operand is none, otherwise the guarded `rhs.num()` unwrap. -/
def Num.addN (self rhs : Num) : Num :=
  match rhs.num with
  | Option.none => .none
  | some w =>
    match self with
    | .In v => .In (qadd v w)
    | .Out v => .Out (qadd v w)
    | .none => .none

/-- `impl Sub<Num> for Num` (number.rs:214-226). -/
def Num.subN (self rhs : Num) : Num :=
  match rhs.num with
  | Option.none => .none
  | some w =>
    match self with
    | .In v => .In (qsub v w)
    | .Out v => .Out (qsub v w)
    | .none => .none

/-- `impl Mul<Num> for Num` (number.rs:240-252). -/
def Num.mulN (self rhs : Num) : Num :=
  match rhs.num with
  | Option.none => .none
  | some w =>
    match self with
    | .In v => .In (qmul v w)
    | .Out v => .Out (qmul v w)
    | .none => .none

/-- `impl Div<Num> for Num` (number.rs:266-277). -/
def Num.divN (self rhs : Num) : Num :=
  match rhs.num with
  | Option.none => .none
  | some w =>
    match self with
    | .In v => .In (qdiv v w)
    | .Out v => .Out (qdiv v w)
    | .none => .none

/-- The prefix-selection loop of `Num::display` (number.rs:93-101): the
first table entry whose power-of-ten divisor puts `|num|` into
`[1, 1000)` scales the value and supplies its first symbol character;
the prefix stays `' '` when no entry matches. -/
def scanPrefixes : List (String × ℤ) → ℚ → ℚ × Char
  | [], v => (v, ' ')
  | m :: rest, v =>
    let factor := pow10 m.2
    if 1 ≤ qdiv (qabs v) factor ∧ qdiv (qabs v) factor < 1000 then
      (qdiv v factor, m.1.data.headD ' ')
    else scanPrefixes rest v

/-- Fuel-driven search for the least `k ≥ k0` with `de ≤ 10 ^ k * nu`. -/
def negExpAux (nu de : ℕ) : ℕ → ℕ → ℕ
  | 0, k0 => k0
  | fuel + 1, k0 => if de ≤ 10 ^ k0 * nu then k0 else negExpAux nu de fuel (k0 + 1)

/-- `⌊log10 q⌋` for `q > 0`, computably.  For `q ≤ 0` it returns `-1`:
combined with the `Int.toNat` clamp below this reproduces the Rust
saturating cast `(0.0).log10().floor() as usize = 0`. -/
def ilog10 (q : ℚ) : ℤ :=
  if 1 ≤ q then (digits10 (qfloor q).toNat (qfloor q).toNat : ℤ) - 1
  else if 0 < q then -(negExpAux q.num.toNat q.den (q.den + 1) 1 : ℤ)
  else -1

/-- `integer_figures` of `Num::display` (number.rs:103):
`num.abs().log10().floor() as usize + 1`; the saturating
float-to-`usize` cast is `Int.toNat` (and `log10` of `0` is `-inf`,
which the cast also clamps to `0`). -/
def integerFigures (x : ℚ) : ℕ := (ilog10 (qabs x)).toNat + 1

/-- `floating_figures` of `Num::display` (number.rs:104-108). -/
def floatingFiguresFor (x : ℚ) (sf : ℕ) : ℕ :=
  if sf < integerFigures x then 0 else sf - integerFigures x

/-- `Num::display` (number.rs:88-114). -/
def Num.display (self : Num) (significant_figures : ℕ) : String :=
  match self.as_option with
  | Option.none => ""
  | some v =>
    let scaled := scanPrefixes METRIC_PREFIXES v
    String.mk (formatFixed scaled.1 (floatingFiguresFor scaled.1 significant_figures) ++
      [scaled.2])

/-- The `while` loop of `Num::display_ratio` (number.rs:124-127), fuel
driven: while `temp.fract()` lies strictly between `0.0001` and `0.9999`,
increment `a` and add `num` to `temp`. -/
def ratioLoop (num : ℚ) : ℕ → ℕ → ℚ → ℕ × ℚ
  | 0, a, temp => (a, temp)
  | fuel + 1, a, temp =>
    if mkRat 1 10000 < qfract temp ∧ qfract temp < mkRat 9999 10000 then
      ratioLoop num fuel (a + 1) (qadd temp num)
    else (a, temp)

/-- The saturating float-to-`i64` `as` cast of Rust (number.rs:129):
values beyond the `i64` range clamp to its bounds. -/
def satI64 (n : ℤ) : ℤ :=
  if n < -9223372036854775808 then -9223372036854775808
  else if 9223372036854775807 < n then 9223372036854775807
  else n

/-- `Num::display_ratio` (number.rs:117-135).  The source loop is
unbounded; fuel `v.den` is proved sufficient below (the loop condition
fails at `a = v.den` at the latest), so the fuel-driven loop computes
exactly what the source loop computes.  `b = temp.round() as i64`
(number.rs:129) is the Rust rounding followed by the saturating cast. -/
def Num.display_ratio (self : Num) : String :=
  match self.as_option with
  | Option.none => ""
  | some v =>
    let r := ratioLoop v v.den 1 v
    String.mk (natDigits r.1 ++ ':' :: intDigits (satI64 (qround r.2)))

/-- Comma-to-period substitution `replace(",", ".")` (number.rs:139,161). -/
def replaceCommas (s : List Char) : List Char :=
  s.map fun c => if c = ',' then '.' else c

/-- The labelled suffix-stripping loop of `Num::parse` (number.rs:142-150):
scan the table in order; at the first entry one of whose symbol characters
equals the last character of `s`, pop that character and record the
entry's power-of-ten factor. -/
def stripLoop : List (String × ℤ) → List Char → List Char × ℚ
  | [], s => (s, 1)
  | m :: rest, s =>
    if m.1.data.any (fun c => s.getLast? == some c) then (s.dropLast, pow10 m.2)
    else stripLoop rest s

/-- Leading-sign split of Rust float parsing. -/
def splitSign : List Char → Bool × List Char
  | [] => (false, [])
  | c :: r =>
    if c = '+' then (false, r)
    else if c = '-' then (true, r)
    else (false, c :: r)

/-- Decimal mantissa of Rust float parsing: `digits+ (. digits*)?` or
`. digits+`; returns its exact rational value and the unconsumed rest. -/
def parseMantissa (s : List Char) : Option (ℚ × List Char) :=
  let ip := s.takeWhile Char.isDigit
  let r1 := s.dropWhile Char.isDigit
  if r1.head? = some '.' then
    let r2 := r1.tail
    let fp := r2.takeWhile Char.isDigit
    let r3 := r2.dropWhile Char.isDigit
    if ip.isEmpty && fp.isEmpty then Option.none
    else some (qadd (qofNat (digitsVal ip)) (mkRat (digitsVal fp) (10 ^ fp.length)), r3)
  else if ip.isEmpty then Option.none
  else some (qofNat (digitsVal ip), r1)

/-- Exponent part of Rust float parsing: empty, or `(e|E) sign? digits+`
consuming the whole rest. -/
def parseExpPart : List Char → Option ℤ
  | [] => some 0
  | c :: r =>
    if c = 'e' ∨ c = 'E' then
      let p := splitSign r
      let ds := p.2.takeWhile Char.isDigit
      let r3 := p.2.dropWhile Char.isDigit
      if ds.isEmpty || !r3.isEmpty then Option.none
      else some (if p.1 then -(digitsVal ds : ℤ) else (digitsVal ds : ℤ))
    else Option.none

/-- Rust `str::parse::<f64>` modelled exactly over `ℚ`:
`sign? mantissa exponent?`, `Option.none` on any malformed input.  (The
non-finite forms `inf`/`NaN` have no rational counterpart and lie
outside the model.) -/
def parseFloat? (s : List Char) : Option ℚ :=
  let p := splitSign s
  match parseMantissa p.2 with
  | Option.none => Option.none
  | some mr =>
    match parseExpPart mr.2 with
    | Option.none => Option.none
    | some e =>
      let v := qmul mr.1 (pow10 e)
      some (if p.1 then qneg v else v)

/-- Body of `Num::parse` (number.rs:138-157) after the comma
substitution: strip at most one trailing prefix character, parse the
remainder, multiply by the recorded factor. -/
def parseCore (s : List Char) : Num :=
  let p := stripLoop METRIC_PREFIXES s
  match parseFloat? p.1 with
  | some v => Num.In (qmul v p.2)
  | Option.none => Num.none

/-- `Num::parse` (number.rs:138-157). -/
def Num.parse (str : String) : Num := parseCore (replaceCommas str.data)

/-- Rust `split(":")` for the single-character separator. -/
def splitColon : List Char → List (List Char)
  | [] => [[]]
  | c :: rest =>
    match splitColon rest with
    | [] => [[]]
    | p :: ps => if c = ':' then [] :: p :: ps else (c :: p) :: ps

/-- `Num::parse_ratio` (number.rs:160-173): comma substitution, split on
`':'`, exactly two parts required, result `parts[1] / parts[0]` under
the tagged division. -/
def Num.parse_ratio (str : String) : Num :=
  let s := replaceCommas str.data
  let parts := splitColon s
  if parts.length = 2 then
    let a := parseCore (parts.getD 0 [])
    let b := parseCore (parts.getD 1 [])
    b.divN a
  else Num.none

/-- C5's description of `parse`, written from the spec's words: substitute
commas, scan the table in order for the first entry one of whose symbol
characters is the final character, strip that one trailing character and
record the entry's factor (factor 1 when nothing matches), parse the
remainder as a float, and return `Input(value * factor)` on success and
`Absent` on failure. -/
def specParse (str : String) : Num :=
  let t := replaceCommas str.data
  let stripped :=
    match METRIC_PREFIXES.find? (fun m => m.1.data.any fun c => t.getLast? == some c) with
    | some m => (t.dropLast, pow10 m.2)
    | Option.none => (t, (1 : ℚ))
  match parseFloat? stripped.1 with
  | some v => Num.In (qmul v stripped.2)
  | Option.none => Num.none

/-- Exit condition of the `display_ratio` search loop at multiplier `a`:
the fractional part of `a·v` is `≤ 0.0001` or `≥ 0.9999`. -/
def ratioExit (v : ℚ) (a : ℕ) : Prop :=
  ¬(mkRat 1 10000 < qfract (qmul (qofNat a) v) ∧
    qfract (qmul (qofNat a) v) < mkRat 9999 10000)

instance (v : ℚ) (a : ℕ) : Decidable (ratioExit v a) := by
  rw [ratioExit]
  infer_instance

/-- The prefix-selection condition of `Num::display` as a Boolean: the
entry's power-of-ten divisor brings `|v|` into `[1, 1000)`. -/
def selCond (v : ℚ) (m : String × ℤ) : Bool :=
  decide (1 ≤ qdiv (qabs v) (pow10 m.2)) && decide (qdiv (qabs v) (pow10 m.2) < 1000)

/-- The table entry `Num::display` selects for value `v`: the first entry
of the table satisfying `selCond`. -/
def specSelect (v : ℚ) : Option (String × ℤ) := METRIC_PREFIXES.find? (selCond v)

/-- The exact rational value denoted by the string `formatFixed x p`. -/
def renderedValue (x : ℚ) (p : ℕ) : ℚ :=
  if x < 0 then -(((halfEvenRound (qmul (qabs x) (pow10 (p : ℤ))) : ℕ) : ℚ) / (10 : ℚ) ^ p)
  else ((halfEvenRound (qmul (qabs x) (pow10 (p : ℤ))) : ℕ) : ℚ) / (10 : ℚ) ^ p

theorem qofNat_eq (n : ℕ) : qofNat n = (n : ℚ) := by
  simp [qofNat, Rat.mkRat_one]

theorem qofInt_eq (n : ℤ) : qofInt n = (n : ℚ) := by
  simp [qofInt, Rat.mkRat_one]

theorem qadd_eq (a b : ℚ) : qadd a b = a + b := by
  rw [qadd, Rat.mkRat_eq_divInt, Rat.divInt_eq_div]
  conv_rhs => rw [← Rat.num_div_den a, ← Rat.num_div_den b]
  rw [div_add_div _ _ (by exact_mod_cast a.den_nz) (by exact_mod_cast b.den_nz)]
  push_cast
  ring_nf

theorem qneg_eq (a : ℚ) : qneg a = -a := by
  rw [qneg, Rat.mkRat_eq_divInt, Rat.divInt_eq_div]
  conv_rhs => rw [← Rat.num_div_den a]
  push_cast
  ring

theorem qsub_eq (a b : ℚ) : qsub a b = a - b := by
  rw [qsub, qadd_eq, qneg_eq, sub_eq_add_neg]

theorem qmul_eq (a b : ℚ) : qmul a b = a * b := by
  rw [qmul, Rat.mkRat_eq_divInt, Rat.divInt_eq_div]
  conv_rhs => rw [← Rat.num_div_den a, ← Rat.num_div_den b]
  rw [div_mul_div_comm]
  push_cast
  ring_nf

theorem qdiv_eq (a b : ℚ) : qdiv a b = a / b := by
  rw [qdiv, Rat.divInt_eq_div]
  by_cases hb : b = 0
  · subst hb
    simp
  · conv_rhs => rw [← Rat.num_div_den a, ← Rat.num_div_den b]
    have hbn : (b.num : ℚ) ≠ 0 := by
      exact_mod_cast Rat.num_ne_zero.mpr hb
    have had : (a.den : ℚ) ≠ 0 := by exact_mod_cast a.den_nz
    have hbd : (b.den : ℚ) ≠ 0 := by exact_mod_cast b.den_nz
    field_simp

theorem qabs_eq (a : ℚ) : qabs a = |a| := by
  rw [qabs]
  by_cases h : a < 0
  · rw [if_pos h, qneg_eq, abs_of_neg h]
  · rw [if_neg h, abs_of_nonneg (not_lt.mp h)]

theorem pow10_eq (e : ℤ) : pow10 e = (10 : ℚ) ^ e := by
  cases e with
  | ofNat n =>
    simp only [pow10, Rat.mkRat_one]
    push_cast
    rw [Int.ofNat_eq_natCast, zpow_natCast]
  | negSucc n =>
    simp only [pow10]
    rw [Rat.mkRat_eq_divInt, Rat.divInt_eq_div, zpow_negSucc]
    push_cast
    simp

theorem pow10_pos (e : ℤ) : 0 < pow10 e := by
  rw [pow10_eq]
  exact zpow_pos (by norm_num) e

theorem pow10_ne_zero (e : ℤ) : pow10 e ≠ 0 := (pow10_pos e).ne'

theorem pow10_add (a b : ℤ) : pow10 (a + b) = pow10 a * pow10 b := by
  rw [pow10_eq, pow10_eq, pow10_eq, zpow_add₀ (by norm_num : (10 : ℚ) ≠ 0)]

theorem qfloor_eq (q : ℚ) : qfloor q = ⌊q⌋ := (Rat.floor_def).symm

theorem qtrunc_eq_floor {q : ℚ} (h : 0 ≤ q) : qtrunc q = ⌊q⌋ := by
  have hnum : 0 ≤ q.num := Rat.num_nonneg.mpr h
  rw [qtrunc, if_neg (not_lt.mpr hnum), ← qfloor_eq, qfloor, Int.ofNat_ediv]
  congr 1
  exact Int.natAbs_of_nonneg hnum

theorem qtrunc_intCast (n : ℤ) : qtrunc ((n : ℤ) : ℚ) = n := by
  rw [qtrunc]
  by_cases h : ((n : ℤ) : ℚ).num < 0
  · rw [if_pos h]
    simp only [Rat.num_intCast, Rat.den_intCast, Nat.div_one] at *
    omega
  · rw [if_neg h]
    simp only [Rat.num_intCast, Rat.den_intCast, Nat.div_one] at *
    omega

theorem qfract_intCast (n : ℤ) : qfract ((n : ℤ) : ℚ) = 0 := by
  rw [qfract, qtrunc_intCast, qsub_eq, qofInt_eq, sub_self]

theorem mkRat_eq_div (n : ℤ) (d : ℕ) : (mkRat n d : ℚ) = (n : ℚ) / (d : ℚ) := by
  rw [Rat.mkRat_eq_divInt, Rat.divInt_eq_div]
  norm_num

theorem digitChar_isDigit {d : ℕ} (h : d < 10) : (Nat.digitChar d).isDigit = true := by
  interval_cases d <;> decide

theorem digitChar_toNat {d : ℕ} (h : d < 10) : (Nat.digitChar d).toNat - 48 = d := by
  interval_cases d <;> decide

theorem digitsVal_foldl (a : ℕ) (l : List Char) :
    l.foldl (fun x c => 10 * x + (c.toNat - 48)) a = a * 10 ^ l.length + digitsVal l := by
  induction l generalizing a with
  | nil => simp [digitsVal]
  | cons c t ih =>
    rw [digitsVal, List.foldl_cons, List.foldl_cons, ih, ih]
    simp only [List.length_cons, pow_succ]
    ring

theorem digitsVal_append (l r : List Char) :
    digitsVal (l ++ r) = digitsVal l * 10 ^ r.length + digitsVal r := by
  rw [digitsVal, List.foldl_append, digitsVal_foldl]
  rfl

theorem digitsVal_cons (c : Char) (t : List Char) :
    digitsVal (c :: t) = (c.toNat - 48) * 10 ^ t.length + digitsVal t := by
  rw [digitsVal, List.foldl_cons, digitsVal_foldl]
  simp

theorem natDigitsAux_val : ∀ fuel n, n ≤ fuel → digitsVal (natDigitsAux fuel n) = n
  | 0, n, h => by
    have hn : n = 0 := Nat.le_zero.mp h
    subst hn
    decide
  | fuel + 1, n, h => by
    rw [natDigitsAux]
    by_cases h10 : n < 10
    · rw [if_pos h10, digitsVal_cons]
      simp [digitsVal, digitChar_toNat h10]
    · rw [if_neg h10, digitsVal_append,
        natDigitsAux_val fuel (n / 10) (by omega), digitsVal_cons]
      simp only [digitsVal, List.length_nil, List.foldl_nil, pow_zero,
        List.length_cons, pow_succ, pow_one]
      rw [digitChar_toNat (Nat.mod_lt n (by norm_num))]
      omega

theorem natDigitsAux_isDigit : ∀ fuel n, n ≤ fuel →
    ∀ c ∈ natDigitsAux fuel n, c.isDigit = true
  | 0, n, h => by
    have hn : n = 0 := Nat.le_zero.mp h
    subst hn
    decide
  | fuel + 1, n, h => by
    rw [natDigitsAux]
    by_cases h10 : n < 10
    · rw [if_pos h10]
      intro c hc
      rw [List.mem_singleton] at hc
      subst hc
      exact digitChar_isDigit h10
    · rw [if_neg h10]
      intro c hc
      rcases List.mem_append.mp hc with hc | hc
      · exact natDigitsAux_isDigit fuel (n / 10) (by omega) c hc
      · rw [List.mem_singleton] at hc
        subst hc
        exact digitChar_isDigit (Nat.mod_lt n (by norm_num))

theorem natDigits_val (n : ℕ) : digitsVal (natDigits n) = n :=
  natDigitsAux_val n n le_rfl

theorem natDigits_isDigit (n : ℕ) : ∀ c ∈ natDigits n, c.isDigit = true :=
  natDigitsAux_isDigit n n le_rfl

theorem natDigitsAux_ne_nil : ∀ fuel n, natDigitsAux fuel n ≠ []
  | 0, n => by simp [natDigitsAux]
  | fuel + 1, n => by
    rw [natDigitsAux]
    by_cases h10 : n < 10
    · simp [h10]
    · simp [h10]

theorem natDigits_ne_nil (n : ℕ) : natDigits n ≠ [] := natDigitsAux_ne_nil n n

theorem padDigits_length : ∀ p n, (padDigits p n).length = p
  | 0, _ => rfl
  | p + 1, n => by
    rw [padDigits, List.length_cons, padDigits_length p]

theorem padDigits_val : ∀ p n, n < 10 ^ p → digitsVal (padDigits p n) = n
  | 0, n, h => by
    simp only [pow_zero, Nat.lt_one_iff] at h
    subst h
    rfl
  | p + 1, n, h => by
    rw [padDigits, digitsVal_cons, padDigits_length,
      padDigits_val p (n % 10 ^ p) (Nat.mod_lt n (by positivity))]
    have hd : n / 10 ^ p < 10 := by
      rw [Nat.div_lt_iff_lt_mul (by positivity)]
      calc n < 10 ^ (p + 1) := h
      _ = 10 * 10 ^ p := by ring
    rw [digitChar_toNat hd]
    conv_rhs => rw [← Nat.div_add_mod n (10 ^ p)]
    ring_nf

theorem padDigits_isDigit : ∀ p n, n < 10 ^ p → ∀ c ∈ padDigits p n, c.isDigit = true
  | 0, n, _ => by simp [padDigits]
  | p + 1, n, h => by
    rw [padDigits]
    intro c hc
    rcases List.mem_cons.mp hc with hc | hc
    · subst hc
      have hd : n / 10 ^ p < 10 := by
        rw [Nat.div_lt_iff_lt_mul (by positivity)]
        calc n < 10 ^ (p + 1) := h
        _ = 10 * 10 ^ p := by ring
      exact digitChar_isDigit hd
    · exact padDigits_isDigit p (n % 10 ^ p) (Nat.mod_lt n (by positivity)) c hc

theorem halfEvenRound_bound {x : ℚ} (h : 0 ≤ x) :
    |((halfEvenRound x : ℕ) : ℚ) - x| ≤ 1 / 2 := by
  have hQ : ((qfloor x).toNat : ℚ) = ((⌊x⌋ : ℤ) : ℚ) := by
    rw [qfloor_eq]
    exact_mod_cast congrArg (fun z => ((z : ℤ) : ℚ))
      (Int.toNat_of_nonneg (Int.floor_nonneg.mpr h))
  have hfl : ((⌊x⌋ : ℤ) : ℚ) ≤ x := Int.floor_le x
  have hfu : x < ((⌊x⌋ : ℤ) : ℚ) + 1 := Int.lt_floor_add_one x
  rw [halfEvenRound]
  simp only [qsub_eq, qofNat_eq, mkRat_eq_div, hQ]
  norm_num only
  by_cases h1 : x - ((⌊x⌋ : ℤ) : ℚ) < 1 / 2
  · rw [if_pos h1, hQ]
    rw [abs_le]
    constructor <;> linarith
  · rw [if_neg h1]
    by_cases h2 : 1 / 2 < x - ((⌊x⌋ : ℤ) : ℚ)
    · rw [if_pos h2]
      push_cast [hQ]
      rw [abs_le]
      constructor <;> linarith
    · have heq : x - ((⌊x⌋ : ℤ) : ℚ) = 1 / 2 := le_antisymm (not_lt.mp h2) (not_lt.mp h1)
      rw [if_neg h2]
      by_cases h3 : (qfloor x).toNat % 2 = 0
      · rw [if_pos h3, hQ, abs_le]
        constructor <;> linarith
      · rw [if_neg h3]
        push_cast [hQ]
        rw [abs_le]
        constructor <;> linarith

/-- Claim C4: every arithmetic operation on two tagged numbers preserves
the left operand's tag and is `Num::None` exactly when either operand is;
every operation on a tagged number and a raw scalar preserves the left
operand's tag and is `Num::None` exactly when the tagged number is.
Stated equationally over the predicates, so it covers both the
propagation and the preservation halves of the claim. -/
theorem c4_arith_tag_and_absent_propagation :
    ∀ (x y : Num) (r : ℚ),
      ((x.addN y).is_input = (x.is_input && !y.is_none) ∧
       (x.addN y).is_output = (x.is_output && !y.is_none) ∧
       (x.addN y).is_none = (x.is_none || y.is_none)) ∧
      ((x.subN y).is_input = (x.is_input && !y.is_none) ∧
       (x.subN y).is_output = (x.is_output && !y.is_none) ∧
       (x.subN y).is_none = (x.is_none || y.is_none)) ∧
      ((x.mulN y).is_input = (x.is_input && !y.is_none) ∧
       (x.mulN y).is_output = (x.is_output && !y.is_none) ∧
       (x.mulN y).is_none = (x.is_none || y.is_none)) ∧
      ((x.divN y).is_input = (x.is_input && !y.is_none) ∧
       (x.divN y).is_output = (x.is_output && !y.is_none) ∧
       (x.divN y).is_none = (x.is_none || y.is_none)) ∧
      ((x.addF r).is_input = x.is_input ∧ (x.addF r).is_output = x.is_output ∧
       (x.addF r).is_none = x.is_none) ∧
      ((x.subF r).is_input = x.is_input ∧ (x.subF r).is_output = x.is_output ∧
       (x.subF r).is_none = x.is_none) ∧
      ((x.mulF r).is_input = x.is_input ∧ (x.mulF r).is_output = x.is_output ∧
       (x.mulF r).is_none = x.is_none) ∧
      ((x.divF r).is_input = x.is_input ∧ (x.divF r).is_output = x.is_output ∧
       (x.divF r).is_none = x.is_none) := by
  intro x y r
  cases x <;> cases y <;>
    simp [Num.addN, Num.subN, Num.mulN, Num.divN, Num.addF, Num.subF,
      Num.mulF, Num.divF, Num.is_input, Num.is_output, Num.is_none, Num.num]

/-- Claim C9: `Num::num` (the `unwrap`) on `Num::None` reaches the panic
branch (modelled as `Option.none`, not any sentinel payload), and on any
value satisfying `is_num` it returns the carried payload; `isSome` of the
result coincides with `is_num`. -/
theorem c9_num_unwrap_panics_only_on_none :
    Num.none.num = Option.none ∧
    (∀ v : ℚ, (Num.In v).num = some v) ∧
    (∀ v : ℚ, (Num.Out v).num = some v) ∧
    (∀ x : Num, x.num.isSome = x.is_num) := by
  refine ⟨rfl, fun v => rfl, fun v => rfl, fun x => ?_⟩
  cases x <;> rfl

theorem stripLoop_eq_find (table : List (String × ℤ)) (s : List Char) :
    stripLoop table s =
      match table.find? (fun m => m.1.data.any fun c => s.getLast? == some c) with
      | some m => (s.dropLast, pow10 m.2)
      | Option.none => (s, (1 : ℚ)) := by
  induction table with
  | nil => rfl
  | cons m rest ih =>
    rw [stripLoop, List.find?]
    by_cases h : (m.1.data.any fun c => s.getLast? == some c) = true
    · rw [if_pos h, h]
    · rw [if_neg h, ih]
      rw [Bool.not_eq_true] at h
      rw [h]

/-- Claim C5: `parse` substitutes `','` by `'.'`, strips at most one
trailing metric-prefix character (first table entry wins, factor 1 when
none matches), parses the remainder as a float, returns
`Input(value * factor)` on success and `Absent` on failure (it never
returns an `Out` and never errors); `parse("5,5k") = Input(5500)` and
`parse("abc") = Absent`. -/
theorem c5_parse_structure :
    (∀ s : String, (Num.parse s).is_output = false) ∧
    (∀ s : String, Num.parse s = specParse s) ∧
    Num.parse "5,5k" = Num.In 5500 ∧
    Num.parse "abc" = Num.none := by
  refine ⟨fun s => ?_, fun s => ?_, by decide, by decide⟩
  · rw [Num.parse, parseCore]
    cases h : parseFloat? (stripLoop METRIC_PREFIXES (replaceCommas s.data)).1 <;>
      simp [h, Num.is_output]
  · rw [Num.parse, parseCore, specParse, stripLoop_eq_find]

theorem replaceCommas_no_comma (s : List Char) : ',' ∉ replaceCommas s := by
  intro hmem
  rcases List.mem_map.mp hmem with ⟨c, _, hc⟩
  by_cases h : c = ',' <;> simp [h] at hc

theorem replaceCommas_eq_self {s : List Char} (h : ',' ∉ s) : replaceCommas s = s := by
  rw [replaceCommas]
  conv_rhs => rw [← List.map_id s]
  refine List.map_congr_left fun c hc => ?_
  have : c ≠ ',' := fun he => h (he ▸ hc)
  simp [this]

theorem splitColon_mem_subset : ∀ (s : List Char) (p : List Char),
    p ∈ splitColon s → ∀ c ∈ p, c ∈ s
  | [], p, hp, c, hc => by
    simp only [splitColon, List.mem_singleton] at hp
    subst hp
    exact absurd hc (List.not_mem_nil c)
  | d :: rest, p, hp, c, hc => by
    rcases hrec : splitColon rest with _ | ⟨q, qs⟩
    · simp only [splitColon, hrec, List.mem_singleton] at hp
      subst hp
      exact absurd hc (List.not_mem_nil c)
    · simp only [splitColon, hrec] at hp
      by_cases hd : d = ':'
      · rw [if_pos hd] at hp
        rcases List.mem_cons.mp hp with hp | hp
        · subst hp
          exact absurd hc (List.not_mem_nil c)
        · have := splitColon_mem_subset rest p (hrec ▸ hp) c hc
          exact List.mem_cons_of_mem d this
      · rw [if_neg hd] at hp
        rcases List.mem_cons.mp hp with hp | hp
        · subst hp
          rcases List.mem_cons.mp hc with hc | hc
          · exact hc ▸ List.mem_cons_self d rest
          · have := splitColon_mem_subset rest q (hrec ▸ List.mem_cons_self q qs) c hc
            exact List.mem_cons_of_mem d this
        · have := splitColon_mem_subset rest p (hrec ▸ List.mem_cons_of_mem q hp) c hc
          exact List.mem_cons_of_mem d this

theorem parseCore_eq_parse {l : List Char} (h : ',' ∉ l) :
    parseCore l = Num.parse (String.mk l) := by
  rw [Num.parse]
  simp only [String.data]
  rw [replaceCommas_eq_self h]

/-- Claim C6: `parse_ratio` substitutes commas, splits on `':'`, yields
`Absent` unless there are exactly two parts, and otherwise returns
`secondPart / firstPart` under the tagged division (so it is `Absent`
whenever either part fails to parse); `parse_ratio("1:3")` equals
`In(3) / In(1)` and has value `3`. -/
theorem c6_parse_ratio_structure :
    (∀ s : String, (splitColon (replaceCommas s.data)).length ≠ 2 →
      Num.parse_ratio s = Num.none) ∧
    (∀ (s : String) (p q : List Char), splitColon (replaceCommas s.data) = [p, q] →
      Num.parse_ratio s = (Num.parse (String.mk q)).divN (Num.parse (String.mk p))) ∧
    (∀ (s : String) (p q : List Char), splitColon (replaceCommas s.data) = [p, q] →
      Num.parse (String.mk p) = Num.none ∨ Num.parse (String.mk q) = Num.none →
      Num.parse_ratio s = Num.none) ∧
    Num.parse_ratio "1:3" = (Num.In 3).divN (Num.In 1) ∧
    Num.parse_ratio "1:3" = Num.In 3 := by
  have key : ∀ (s : String) (p q : List Char), splitColon (replaceCommas s.data) = [p, q] →
      Num.parse_ratio s = (Num.parse (String.mk q)).divN (Num.parse (String.mk p)) := by
    intro s p q h
    have hp : ',' ∉ p := fun hc =>
      replaceCommas_no_comma s.data
        (splitColon_mem_subset _ p (h ▸ List.mem_cons_self p [q]) ',' hc)
    have hq : ',' ∉ q := fun hc =>
      replaceCommas_no_comma s.data
        (splitColon_mem_subset _ q (h ▸ List.mem_cons_of_mem p (List.mem_cons_self q [])) ',' hc)
    rw [Num.parse_ratio]
    simp only [h]
    rw [if_pos (show ([p, q] : List (List Char)).length = 2 from rfl)]
    show (parseCore q).divN (parseCore p) = _
    rw [parseCore_eq_parse hp, parseCore_eq_parse hq]
  refine ⟨fun s h => ?_, key, fun s p q h habs => ?_, by decide, by decide⟩
  · rw [Num.parse_ratio]
    exact if_neg h
  · rw [key s p q h]
    rcases habs with habs | habs <;> rw [habs]
    · rfl
    · rcases hp2 : Num.parse (String.mk p) with v | v | _ <;> simp [Num.divN, Num.num]

/-- Witness for C6 at the concrete input `"1:3"`: the split yields the
two parts `"1"` and `"3"`, and `parse_ratio` is the tagged division of
the parsed second part by the parsed first part. -/
theorem c6_parse_ratio_structure_witness :
    splitColon (replaceCommas ("1:3" : String).data) = [['1'], ['3']] ∧
    Num.parse_ratio "1:3" =
      (Num.parse (String.mk ['3'])).divN (Num.parse (String.mk ['1'])) :=
  ⟨by decide, c6_parse_ratio_structure.2.1 "1:3" ['1'] ['3'] (by decide)⟩

theorem qmul_ofNat_succ (a : ℕ) (v : ℚ) :
    qadd (qmul (qofNat a) v) v = qmul (qofNat (a + 1)) v := by
  rw [qadd_eq, qmul_eq, qmul_eq, qofNat_eq, qofNat_eq]
  push_cast
  ring

theorem ratioLoop_spec (v : ℚ) : ∀ (fuel a : ℕ),
    (∃ k, k ≤ fuel ∧ ratioExit v (a + k)) →
    ∃ m, ratioLoop v fuel a (qmul (qofNat a) v) = (m, qmul (qofNat m) v) ∧
      a ≤ m ∧ ratioExit v m ∧ ∀ j, a ≤ j → j < m → ¬ ratioExit v j
  | 0, a, h => by
    rcases h with ⟨k, hk, hexit⟩
    have hk0 : k = 0 := Nat.le_zero.mp hk
    subst hk0
    exact ⟨a, rfl, le_rfl, hexit, fun j h1 h2 => absurd (lt_of_le_of_lt h1 h2) (lt_irrefl a)⟩
  | fuel + 1, a, h => by
    rw [ratioLoop]
    by_cases hcond : mkRat 1 10000 < qfract (qmul (qofNat a) v) ∧
        qfract (qmul (qofNat a) v) < mkRat 9999 10000
    · rw [if_pos hcond, qmul_ofNat_succ]
      have hnotexit : ¬ ratioExit v a := fun hx => hx hcond
      have hnext : ∃ k, k ≤ fuel ∧ ratioExit v (a + 1 + k) := by
        rcases h with ⟨k, hk, hexit⟩
        rcases k with _ | k
        · exact absurd hexit hnotexit
        · exact ⟨k, by omega, by rw [show a + 1 + k = a + (k + 1) by omega]; exact hexit⟩
      rcases ratioLoop_spec v fuel (a + 1) hnext with ⟨m, heq, hle, hexit, hleast⟩
      refine ⟨m, heq, by omega, hexit, fun j h1 h2 => ?_⟩
      rcases Nat.eq_or_lt_of_le h1 with h1 | h1
      · exact h1 ▸ hnotexit
      · exact hleast j h1 h2
    · rw [if_neg hcond]
      exact ⟨a, rfl, le_rfl, fun hx => hcond hx,
        fun j h1 h2 => absurd (lt_of_le_of_lt h1 h2) (lt_irrefl a)⟩

theorem qmul_den_self (v : ℚ) : qmul (qofNat v.den) v = ((v.num : ℤ) : ℚ) := by
  rw [qmul_eq, qofNat_eq, mul_comm]
  exact_mod_cast Rat.mul_den_eq_num v

theorem ratioExit_den (v : ℚ) : ratioExit v v.den := by
  rw [ratioExit, qmul_den_self, qfract_intCast]
  intro hx
  have h1 : mkRat 1 10000 < (0 : ℚ) := hx.1
  have h2 : ¬ mkRat 1 10000 < (0 : ℚ) := by decide
  exact h2 h1

theorem qmul_one_left (v : ℚ) : qmul (qofNat 1) v = v := by
  rw [qmul_eq, qofNat_eq]
  push_cast
  ring

/-- Counterexample to claim C7 at its concrete input: at the present
value `10¹⁹` the loop exits immediately (the fractional part is `0`)
with `a = 1`, and the program's `b = temp.round() as i64` saturates at
`i64::MAX`, so the output is `"1:9223372036854775807"` — not the
`"1:10000000000000000000"` that `b = round(acc)` would demand. -/
theorem c7_counterexample_saturating_cast :
    Num.display_ratio (Num.In (mkRat (10 ^ 19) 1)) = "1:9223372036854775807" ∧
    Num.display_ratio (Num.In (mkRat (10 ^ 19) 1)) ≠ "1:10000000000000000000" := by
  constructor <;> decide

/-- Claim C7 (amended): `display_ratio` returns `""` for `Num::None`;
for a present value `v` it returns exactly `"{a}:{b}"` where `a` is the
least multiplier `≥ 1` whose product with `v` has fractional part
`≤ 0.0001` or `≥ 0.9999` (the loop runs while the fractional part lies
strictly between the two bounds) and `b` is `round(a·v)` — Rust
rounding — saturated to the `i64` range by the `as i64` cast. -/
theorem c7_display_ratio_loop :
    Num.display_ratio Num.none = "" ∧
    ∀ (t : Num) (v : ℚ), t.as_option = some v →
      ∃ a : ℕ, 1 ≤ a ∧ ratioExit v a ∧ (∀ j, 1 ≤ j → j < a → ¬ ratioExit v j) ∧
        Num.display_ratio t =
          String.mk (natDigits a ++ ':' ::
            intDigits (satI64 (qround (qmul (qofNat a) v)))) := by
  refine ⟨rfl, fun t v hv => ?_⟩
  have hfuel : ∃ k, k ≤ v.den ∧ ratioExit v (1 + k) := by
    refine ⟨v.den - 1, by omega, ?_⟩
    rw [show 1 + (v.den - 1) = v.den from by
      have := v.den_pos
      omega]
    exact ratioExit_den v
  rcases ratioLoop_spec v v.den 1 hfuel with ⟨m, heq, hle, hexit, hleast⟩
  refine ⟨m, hle, hexit, fun j h1 h2 => hleast j h1 h2, ?_⟩
  cases t with
  | In w =>
    have hw : w = v := by
      simpa [Num.as_option] using hv
    subst hw
    rw [Num.display_ratio]
    simp only [Num.as_option]
    rw [qmul_one_left w] at heq
    rw [heq]
  | Out w =>
    have hw : w = v := by
      simpa [Num.as_option] using hv
    subst hw
    rw [Num.display_ratio]
    simp only [Num.as_option]
    rw [qmul_one_left w] at heq
    rw [heq]
  | none => simp [Num.as_option] at hv

/-- Witness for the amended C7 at the concrete present value `3/2`: the
loop exits at `a = 2` with `b = 3` (the cast does not saturate),
producing `"2:3"`. -/
theorem c7_display_ratio_loop_witness :
    (Num.In (mkRat 3 2)).as_option = some (mkRat 3 2) ∧
    ∃ a : ℕ, 1 ≤ a ∧ ratioExit (mkRat 3 2) a ∧
      (∀ j, 1 ≤ j → j < a → ¬ ratioExit (mkRat 3 2) j) ∧
      Num.display_ratio (Num.In (mkRat 3 2)) =
        String.mk (natDigits a ++ ':' ::
          intDigits (satI64 (qround (qmul (qofNat a) (mkRat 3 2))))) :=
  ⟨rfl, c7_display_ratio_loop.2 (Num.In (mkRat 3 2)) (mkRat 3 2) rfl⟩

/-- Counterexample to claim C8 as stated: there is no payload at all on
which the ratio search loop can run indefinitely — the exit condition is
reached for every value (every 64-bit float is a rational number, and for
rational `v` the multiple `v.den · v` is an integer, whose fractional
part `0` stops the loop). -/
theorem c8_counterexample_no_divergent_input :
    ¬ ∃ v : ℚ, ∀ a : ℕ, 1 ≤ a → ¬ ratioExit v a :=
  fun ⟨v, h⟩ => h v.den v.den_pos (ratioExit_den v)

/-- Claim C8 (amended): the source loop carries no explicit iteration
bound, but the brute-force search nevertheless terminates for every
input value: the loop condition fails at `a = v.den` at the latest, so
an exit index `1 ≤ a ≤ v.den` always exists. -/
theorem c8_ratio_search_always_terminates :
    ∀ v : ℚ, ∃ a : ℕ, 1 ≤ a ∧ a ≤ v.den ∧ ratioExit v a :=
  fun v => ⟨v.den, v.den_pos, le_rfl, ratioExit_den v⟩

theorem selCond_iff (v : ℚ) (m : String × ℤ) :
    selCond v m = true ↔
      (1 ≤ qdiv (qabs v) (pow10 m.2) ∧ qdiv (qabs v) (pow10 m.2) < 1000) := by
  rw [selCond]
  simp

theorem scanPrefixes_eq_find (table : List (String × ℤ)) (v : ℚ) :
    scanPrefixes table v =
      match table.find? (selCond v) with
      | some m => (qdiv v (pow10 m.2), m.1.data.headD ' ')
      | Option.none => (v, ' ') := by
  induction table with
  | nil => rfl
  | cons m rest ih =>
    rw [scanPrefixes, List.find?]
    by_cases h : 1 ≤ qdiv (qabs v) (pow10 m.2) ∧ qdiv (qabs v) (pow10 m.2) < 1000
    · rw [if_pos h, (selCond_iff v m).mpr h]
    · rw [if_neg h, ih]
      have : selCond v m = false := by
        rw [← Bool.not_eq_true, selCond_iff]
        exact h
      rw [this]

theorem formatFixed_chars (x : ℚ) (p : ℕ) :
    ∀ c ∈ formatFixed x p, c.isDigit = true ∨ c = '-' ∨ c = '.' := by
  intro c hc
  rw [formatFixed] at hc
  rcases List.mem_append.mp hc with hc | hc
  · rcases List.mem_append.mp hc with hc | hc
    · by_cases hx : x < 0
      · rw [if_pos hx, List.mem_singleton] at hc
        exact Or.inr (Or.inl hc)
      · rw [if_neg hx] at hc
        exact absurd hc (List.not_mem_nil c)
    · exact Or.inl (natDigits_isDigit _ c hc)
  · by_cases hp : p = 0
    · rw [if_pos hp] at hc
      exact absurd hc (List.not_mem_nil c)
    · rw [if_neg hp] at hc
      rcases List.mem_cons.mp hc with hc | hc
      · exact Or.inr (Or.inr hc)
      · exact Or.inl (padDigits_isDigit p _ (Nat.mod_lt _ (by positivity)) c hc)

theorem formatFixed_no_comma (x : ℚ) (p : ℕ) : ',' ∉ formatFixed x p := by
  intro hc
  rcases formatFixed_chars x p ',' hc with h | h | h <;> revert h <;> decide

theorem padDigits_zero : ∀ p, padDigits p 0 = List.replicate p '0'
  | 0 => rfl
  | p + 1 => by
    rw [padDigits, Nat.zero_div, Nat.zero_mod, padDigits_zero p, List.replicate_succ]
    rfl

theorem formatFixed_zero (p : ℕ) :
    formatFixed 0 p = '0' :: (if p = 0 then [] else '.' :: List.replicate p '0') := by
  have h1 : qmul (qabs 0) (pow10 (p : ℤ)) = 0 := by
    rw [qmul_eq, show qabs 0 = 0 from rfl, zero_mul]
  rw [formatFixed, h1, show halfEvenRound 0 = 0 from rfl, Nat.zero_div, Nat.zero_mod,
    if_neg (show ¬(0 : ℚ) < 0 from lt_irrefl 0), padDigits_zero]
  rfl

/-- Counterexample to claim C3 at its concrete input: `display` of a
present `0` with 3 significant figures is `"0.00 "` — the blank prefix
character `' '` is still appended — not the claimed `"0.00"`. -/
theorem c3_counterexample_trailing_blank :
    Num.display (Num.In 0) 3 = "0.00 " ∧ Num.display (Num.In 0) 3 ≠ "0.00" := by
  constructor <;> decide

/-- Claim C3 (amended): a present value of exactly `0` is rendered with
`significantFigures - 1` fractional digits (all zero) and no metric
prefix, with no domain error from `log10(0)` (the saturating cast turns
the `-inf` into `0` integer figures); the blank prefix character is
still appended, so for `sf = 3` the result is `"0.00 "`, not `"0.00"`. -/
theorem c3_display_zero (sf : ℕ) :
    Num.display (Num.In 0) sf =
      String.mk ('0' :: (if sf ≤ 1 then [] else '.' :: List.replicate (sf - 1) '0') ++ [' ']) := by
  rw [Num.display]
  simp only [Num.as_option]
  rw [show scanPrefixes METRIC_PREFIXES (0 : ℚ) = ((0 : ℚ), ' ') from by decide]
  rw [show floatingFiguresFor (0 : ℚ) sf = (if sf < 1 then 0 else sf - 1) from by
    rw [floatingFiguresFor, show integerFigures (0 : ℚ) = 1 from by decide]]
  rw [formatFixed_zero]
  by_cases hsf : sf ≤ 1
  · rw [if_pos hsf, show (if sf < 1 then 0 else sf - 1) = 0 from by split <;> omega,
      if_pos rfl]
  · rw [if_neg hsf, show (if sf < 1 then 0 else sf - 1) = sf - 1 from by split <;> omega,
      if_neg (by omega)]

/-- Witness for the amended C3 at `sf = 3`: the rendered string is
exactly `"0.00 "`. -/
theorem c3_display_zero_witness :
    Num.display (Num.In 0) 3 =
      String.mk ('0' :: (if 3 ≤ 1 then [] else '.' :: List.replicate (3 - 1) '0') ++ [' ']) :=
  c3_display_zero 3

theorem pow10_natCast (k : ℕ) : pow10 (k : ℤ) = ((10 ^ k : ℕ) : ℚ) := by
  rw [pow10_eq, zpow_natCast]
  push_cast
  rfl

theorem pow10_neg_natCast (k : ℕ) : pow10 (-(k : ℤ)) = 1 / ((10 ^ k : ℕ) : ℚ) := by
  rw [pow10_eq, zpow_neg, zpow_natCast, one_div]
  push_cast
  rfl

theorem digits10_pos : ∀ fuel n, 1 ≤ digits10 fuel n
  | 0, _ => le_rfl
  | fuel + 1, n => by
    rw [digits10]
    split
    · exact le_rfl
    · omega

theorem digits10_bounds : ∀ fuel n, 1 ≤ n → n ≤ fuel →
    10 ^ (digits10 fuel n - 1) ≤ n ∧ n < 10 ^ digits10 fuel n
  | 0, n, h1, h2 => absurd (le_trans h1 h2) (by norm_num)
  | fuel + 1, n, h1, h2 => by
    rw [digits10]
    by_cases h10 : n < 10
    · rw [if_pos h10]
      exact ⟨by simpa using h1, by simpa using h10⟩
    · rw [if_neg h10]
      have hrec := digits10_bounds fuel (n / 10) (by omega) (by omega)
      have hd1 : 1 ≤ digits10 fuel (n / 10) := digits10_pos fuel (n / 10)
      constructor
      · have step : 10 ^ (digits10 fuel (n / 10) - 1) * 10 ≤ (n / 10) * 10 :=
          Nat.mul_le_mul_right 10 hrec.1
        calc 10 ^ (digits10 fuel (n / 10) + 1 - 1)
            = 10 ^ (digits10 fuel (n / 10) - 1) * 10 := by
              rw [← pow_succ]
              congr 1
              omega
        _ ≤ (n / 10) * 10 := step
        _ ≤ n := Nat.div_mul_le_self n 10
      · have := hrec.2
        rw [pow_succ]
        calc n < (n / 10 + 1) * 10 := by omega
        _ ≤ 10 ^ digits10 fuel (n / 10) * 10 := Nat.mul_le_mul_right 10 (by omega)

theorem negExpAux_spec (nu de : ℕ) : ∀ (fuel k0 : ℕ),
    (∃ j, j ≤ fuel ∧ de ≤ 10 ^ (k0 + j) * nu) →
    de ≤ 10 ^ negExpAux nu de fuel k0 * nu ∧ k0 ≤ negExpAux nu de fuel k0 ∧
      ∀ i, k0 ≤ i → i < negExpAux nu de fuel k0 → 10 ^ i * nu < de
  | 0, k0, h => by
    rcases h with ⟨j, hj, hcond⟩
    have hj0 : j = 0 := Nat.le_zero.mp hj
    subst hj0
    rw [negExpAux]
    exact ⟨by simpa using hcond, le_rfl, fun i hi1 hi2 => absurd (lt_of_le_of_lt hi1 hi2)
      (lt_irrefl k0)⟩
  | fuel + 1, k0, h => by
    rw [negExpAux]
    by_cases hc : de ≤ 10 ^ k0 * nu
    · rw [if_pos hc]
      exact ⟨hc, le_rfl, fun i hi1 hi2 => absurd (lt_of_le_of_lt hi1 hi2) (lt_irrefl k0)⟩
    · rw [if_neg hc]
      have hnext : ∃ j, j ≤ fuel ∧ de ≤ 10 ^ (k0 + 1 + j) * nu := by
        rcases h with ⟨j, hj, hcond⟩
        rcases j with _ | j
        · exact absurd (by simpa using hcond) hc
        · exact ⟨j, by omega, by rw [show k0 + 1 + j = k0 + (j + 1) from by omega]; exact hcond⟩
      rcases negExpAux_spec nu de fuel (k0 + 1) hnext with ⟨ha, hb, hle⟩
      refine ⟨ha, by omega, fun i hi1 hi2 => ?_⟩
      rcases Nat.eq_or_lt_of_le hi1 with hi1 | hi1
      · rw [← hi1]
        omega
      · exact hle i hi1 hi2

theorem ilog10_bracket {q : ℚ} (hq : 0 < q) :
    pow10 (ilog10 q) ≤ q ∧ q < pow10 (ilog10 q + 1) := by
  rw [ilog10]
  by_cases h1 : 1 ≤ q
  · rw [if_pos h1]
    have hfl0 : (1 : ℤ) ≤ ⌊q⌋ := Int.le_floor.mpr (by exact_mod_cast h1)
    have hfl : 1 ≤ (qfloor q).toNat := by
      rw [qfloor_eq]
      omega
    have hb := digits10_bounds (qfloor q).toNat (qfloor q).toNat hfl le_rfl
    have hd1 : 1 ≤ digits10 (qfloor q).toNat (qfloor q).toNat :=
      digits10_pos (qfloor q).toNat (qfloor q).toNat
    have hcastfl : (((qfloor q).toNat : ℕ) : ℚ) = ((⌊q⌋ : ℤ) : ℚ) := by
      rw [qfloor_eq]
      exact_mod_cast congrArg (fun z => ((z : ℤ) : ℚ)) (Int.toNat_of_nonneg (by omega))
    constructor
    · have hcast : ((digits10 (qfloor q).toNat (qfloor q).toNat : ℤ) - 1) =
          (((digits10 (qfloor q).toNat (qfloor q).toNat - 1 : ℕ) : ℤ)) := by omega
      rw [hcast, pow10_natCast]
      calc ((10 ^ (digits10 (qfloor q).toNat (qfloor q).toNat - 1) : ℕ) : ℚ)
          ≤ (((qfloor q).toNat : ℕ) : ℚ) := by exact_mod_cast hb.1
      _ = ((⌊q⌋ : ℤ) : ℚ) := hcastfl
      _ ≤ q := Int.floor_le q
    · have hcast : ((digits10 (qfloor q).toNat (qfloor q).toNat : ℤ) - 1 + 1) =
          ((digits10 (qfloor q).toNat (qfloor q).toNat : ℕ) : ℤ) := by omega
      rw [hcast, pow10_natCast]
      calc q < ((⌊q⌋ : ℤ) : ℚ) + 1 := Int.lt_floor_add_one q
      _ = (((qfloor q).toNat : ℕ) : ℚ) + 1 := by rw [hcastfl]
      _ ≤ ((10 ^ digits10 (qfloor q).toNat (qfloor q).toNat : ℕ) : ℚ) := by
          exact_mod_cast hb.2
  · rw [if_neg h1, if_pos hq]
    have hnum : 0 < q.num := Rat.num_pos.mpr hq
    have hnu : 1 ≤ q.num.toNat := by omega
    have hde : 0 < q.den := q.den_pos
    have hex : ∃ j, j ≤ q.den + 1 ∧ q.den ≤ 10 ^ (1 + j) * q.num.toNat := by
      refine ⟨q.den, by omega, ?_⟩
      have hp : q.den < 10 ^ q.den := Nat.lt_pow_self (by norm_num) q.den
      calc q.den ≤ 10 ^ q.den := le_of_lt hp
      _ ≤ 10 ^ (1 + q.den) := Nat.pow_le_pow_right (by norm_num) (by omega)
      _ ≤ 10 ^ (1 + q.den) * q.num.toNat := Nat.le_mul_of_pos_right _ (by omega)
    rcases negExpAux_spec q.num.toNat q.den (q.den + 1) 1 hex with ⟨ha, hk1, hleast⟩
    set k := negExpAux q.num.toNat q.den (q.den + 1) 1 with hk
    have hnumcast : ((q.num.toNat : ℕ) : ℚ) = ((q.num : ℤ) : ℚ) := by
      have h2 : ((q.num.toNat : ℕ) : ℤ) = q.num := Int.toNat_of_nonneg (by omega)
      exact_mod_cast h2
    have hqeq : q = ((q.num.toNat : ℕ) : ℚ) / ((q.den : ℕ) : ℚ) := by
      rw [hnumcast]
      exact (Rat.num_div_den q).symm
    have hdeQ : (0 : ℚ) < ((q.den : ℕ) : ℚ) := by exact_mod_cast hde
    have hpowQ : ∀ j : ℕ, (0 : ℚ) < ((10 ^ j : ℕ) : ℚ) := fun j => by positivity
    constructor
    · rw [pow10_neg_natCast, hqeq, div_le_div_iff (hpowQ k) hdeQ]
      have h3 : q.den ≤ q.num.toNat * 10 ^ k := by
        calc q.den ≤ 10 ^ k * q.num.toNat := ha
        _ = q.num.toNat * 10 ^ k := by ring
      rw [one_mul]
      exact_mod_cast h3
    · have hcast : (-(k : ℤ) + 1) = -((k - 1 : ℕ) : ℤ) := by omega
      rw [hcast, pow10_neg_natCast, hqeq, div_lt_div_iff hdeQ (hpowQ (k - 1))]
      rcases Nat.eq_or_lt_of_le hk1 with hk1 | hk1
      · have hk0 : k - 1 = 0 := by omega
        rw [hk0]
        have : q.num.toNat < q.den := by
          by_contra hcon
          push_neg at hcon
          apply h1
          rw [hqeq]
          rw [le_div_iff hdeQ, one_mul]
          exact_mod_cast hcon
        simpa using (by exact_mod_cast this : ((q.num.toNat : ℕ) : ℚ) < ((q.den : ℕ) : ℚ))
      · have := hleast (k - 1) (by omega) (by omega)
        have h4 : q.num.toNat * 10 ^ (k - 1) < q.den := by
          calc q.num.toNat * 10 ^ (k - 1) = 10 ^ (k - 1) * q.num.toNat := by ring
          _ < q.den := this
        rw [one_mul]
        exact_mod_cast h4

theorem display_present {t : Num} {v : ℚ} (hv : t.as_option = some v) (sf : ℕ) :
    Num.display t sf =
      String.mk (formatFixed (scanPrefixes METRIC_PREFIXES v).1
        (floatingFiguresFor (scanPrefixes METRIC_PREFIXES v).1 sf) ++
        [(scanPrefixes METRIC_PREFIXES v).2]) := by
  cases t with
  | In w =>
    have hw : w = v := by simpa [Num.as_option] using hv
    subst hw
    rfl
  | Out w =>
    have hw : w = v := by simpa [Num.as_option] using hv
    subst hw
    rfl
  | none => simp [Num.as_option] at hv

theorem dot_not_digit_mem {c : Char} (h : c.isDigit = true) : c ≠ '.' := by
  intro he
  subst he
  exact absurd h (by decide)

/-- Counterexample to claim C2 at its concrete input: for a present value
matching no prefix entry the rendered string is followed by a space, not
by nothing: `display(In 5, 3) = "5.00 " ≠ "5.00"`. -/
theorem c2_counterexample_trailing_blank :
    Num.display (Num.In 5) 3 = "5.00 " ∧ Num.display (Num.In 5) 3 ≠ "5.00" := by
  constructor <;> decide

/-- Claim C2 (amended): for a present value and any significant-figure
count, `display` selects the first prefix-table entry whose power-of-ten
divisor brings `|v|` into `[1, 1000)` (no entry: divisor 1), divides by
it, renders the scaled value with exactly
`max(significantFigures - integerFigures, 0)` fractional digits under
the formatter's rounding, followed immediately by the entry's first
symbol character — or by the blank character `' '` (not by nothing) when
no entry matches; `display(fromInput(1e-9), 3) = "1.00n"` and
`display(fromInput(1500), 3) = "1.50k"`. -/
theorem c2_display_selection_and_digits :
    (∀ (t : Num) (v : ℚ) (sf : ℕ), t.as_option = some v →
      (∀ m, specSelect v = some m →
        Num.display t sf = String.mk (formatFixed (qdiv v (pow10 m.2))
          (floatingFiguresFor (qdiv v (pow10 m.2)) sf) ++ [m.1.data.headD ' '])) ∧
      (specSelect v = Option.none →
        Num.display t sf = String.mk (formatFixed v (floatingFiguresFor v sf) ++ [' ']))) ∧
    (∀ (x : ℚ) (sf : ℕ), floatingFiguresFor x sf = sf - integerFigures x) ∧
    (∀ (x : ℚ) (p : ℕ), p ≠ 0 → ∃ pre post, formatFixed x p = pre ++ '.' :: post ∧
      post.length = p ∧ (∀ c ∈ post, c.isDigit = true) ∧ '.' ∉ pre) ∧
    (∀ x : ℚ, 0 < x → pow10 (ilog10 x) ≤ x ∧ x < pow10 (ilog10 x + 1)) ∧
    Num.display (Num.In (mkRat 1 1000000000)) 3 = "1.00n" ∧
    Num.display (Num.In 1500) 3 = "1.50k" := by
  refine ⟨fun t v sf hv => ⟨fun m hm => ?_, fun hm => ?_⟩,
    fun x sf => ?_, fun x p hp => ?_, fun x hx => ilog10_bracket hx, by decide, by decide⟩
  · rw [display_present hv sf, scanPrefixes_eq_find]
    rw [specSelect] at hm
    rw [hm]
  · rw [display_present hv sf, scanPrefixes_eq_find]
    rw [specSelect] at hm
    rw [hm]
  · rw [floatingFiguresFor]
    split <;> omega
  · refine ⟨(if x < 0 then ['-'] else []) ++
      natDigits (halfEvenRound (qmul (qabs x) (pow10 (p : ℤ))) / 10 ^ p),
      padDigits p (halfEvenRound (qmul (qabs x) (pow10 (p : ℤ))) % 10 ^ p), ?_, ?_, ?_, ?_⟩
    · rw [formatFixed, if_neg hp, List.append_assoc]
    · exact padDigits_length p _
    · exact padDigits_isDigit p _ (Nat.mod_lt _ (by positivity))
    · intro hdot
      rcases List.mem_append.mp hdot with hdot | hdot
      · by_cases hx : x < 0
        · rw [if_pos hx, List.mem_singleton] at hdot
          exact absurd hdot (by decide)
        · rw [if_neg hx] at hdot
          exact absurd hdot (List.not_mem_nil _)
      · exact dot_not_digit_mem (natDigits_isDigit _ _ hdot) rfl

/-- Witness for the amended C2: at `v = 1500`, `sf = 3` the selected
entry is `("k", 3)` and the display is the `formatFixed` rendering of
`1500 / 10³` followed by `'k'`. -/
theorem c2_display_selection_witness :
    (Num.In (1500 : ℚ)).as_option = some (1500 : ℚ) ∧
    specSelect (1500 : ℚ) = some ("k", 3) ∧
    Num.display (Num.In (1500 : ℚ)) 3 = String.mk (formatFixed (qdiv (1500 : ℚ) (pow10 (3 : ℤ)))
      (floatingFiguresFor (qdiv (1500 : ℚ) (pow10 (3 : ℤ))) 3) ++
      [("k", (3 : ℤ)).1.data.headD ' ']) :=
  ⟨rfl, by decide,
    (c2_display_selection_and_digits.1 (Num.In (1500 : ℚ)) (1500 : ℚ) 3 rfl).1
      ("k", (3 : ℤ)) (by decide)⟩

theorem pow10_le_pow10 {a b : ℤ} (h : a ≤ b) : pow10 a ≤ pow10 b := by
  rw [pow10_eq, pow10_eq]
  gcongr
  norm_num

theorem selCond_false_of_le {v : ℚ} {e elow : ℤ} (h : pow10 e ≤ qabs v)
    (he : elow + 3 ≤ e) (s : String) : selCond v (s, elow) = false := by
  rw [selCond]
  have hge : 1000 ≤ qdiv (qabs v) (pow10 elow) := by
    rw [qdiv_eq, le_div_iff₀ (pow10_pos elow)]
    calc (1000 : ℚ) * pow10 elow = pow10 3 * pow10 elow := by
          rw [show pow10 3 = (1000 : ℚ) from by decide]
    _ = pow10 (3 + elow) := (pow10_add 3 elow).symm
    _ ≤ pow10 e := pow10_le_pow10 (by omega)
    _ ≤ qabs v := h
  have : decide (qdiv (qabs v) (pow10 elow) < 1000) = false := by
    simp only [decide_eq_false_iff_not, not_lt]
    exact hge
  rw [this, Bool.and_false]

theorem specSelect_micro {v : ℚ} (h1 : 1 ≤ qdiv (qabs v) (pow10 (-6)))
    (h2 : qdiv (qabs v) (pow10 (-6)) < 1000) :
    specSelect v = some ("µu", -6) := by
  have habs : pow10 (-6) ≤ qabs v := by
    rw [qdiv_eq] at h1
    exact (one_le_div (pow10_pos _)).mp h1
  simp only [specSelect, METRIC_PREFIXES, List.find?,
    selCond_false_of_le habs (show (-15 : ℤ) + 3 ≤ -6 from by norm_num) "f",
    selCond_false_of_le habs (show (-12 : ℤ) + 3 ≤ -6 from by norm_num) "p",
    selCond_false_of_le habs (show (-9 : ℤ) + 3 ≤ -6 from by norm_num) "n",
    (selCond_iff v ("µu", -6)).mpr ⟨h1, h2⟩]

theorem formatFixed_not_mem {c : Char} (h1 : c.isDigit = false) (h2 : c ≠ '-')
    (h3 : c ≠ '.') (x : ℚ) (p : ℕ) : c ∉ formatFixed x p := by
  intro hc
  rcases formatFixed_chars x p c hc with h | h | h
  · rw [h1] at h
    exact Bool.false_ne_true h
  · exact h2 h
  · exact h3 h

/-- Claim C10: the micro table entry carries the two characters `µ` and
`u`, so `parse` accepts plain ASCII `u` as a micro suffix
(`parse("5u") = Input(5·10⁻⁶)`), while `display` of any micro-range
value emits the entry's first character `µ` — the rendered digits never
contain a `u`. -/
theorem c10_micro_prefix_aliases :
    Num.parse "5u" = Num.In (mkRat 1 200000) ∧
    ∀ (t : Num) (v : ℚ) (sf : ℕ), t.as_option = some v →
      1 ≤ qdiv (qabs v) (pow10 (-6)) → qdiv (qabs v) (pow10 (-6)) < 1000 →
      Num.display t sf = String.mk (formatFixed (qdiv v (pow10 (-6)))
        (floatingFiguresFor (qdiv v (pow10 (-6))) sf) ++ ['µ']) ∧
      'u' ∉ formatFixed (qdiv v (pow10 (-6)))
        (floatingFiguresFor (qdiv v (pow10 (-6))) sf) := by
  refine ⟨by decide, fun t v sf hv h1 h2 => ⟨?_, ?_⟩⟩
  · have hsel := specSelect_micro h1 h2
    rw [specSelect] at hsel
    rw [display_present hv sf, scanPrefixes_eq_find, hsel]
    rfl
  · exact formatFixed_not_mem (by decide) (by decide) (by decide) _ _

/-- Witness for C10 at `v = 10⁻⁵`, `sf = 3`: the micro-range display is
the scaled rendering followed by `'µ'`, and `'u'` does not occur. -/
theorem c10_micro_prefix_aliases_witness :
    (Num.In (mkRat 1 100000)).as_option = some (mkRat 1 100000) ∧
    1 ≤ qdiv (qabs (mkRat 1 100000)) (pow10 (-6)) ∧
    qdiv (qabs (mkRat 1 100000)) (pow10 (-6)) < 1000 ∧
    (Num.display (Num.In (mkRat 1 100000)) 3 =
      String.mk (formatFixed (qdiv (mkRat 1 100000) (pow10 (-6)))
        (floatingFiguresFor (qdiv (mkRat 1 100000) (pow10 (-6))) 3) ++ ['µ']) ∧
    'u' ∉ formatFixed (qdiv (mkRat 1 100000) (pow10 (-6)))
        (floatingFiguresFor (qdiv (mkRat 1 100000) (pow10 (-6))) 3)) :=
  ⟨rfl, by decide, by decide,
    c10_micro_prefix_aliases.2 (Num.In (mkRat 1 100000)) (mkRat 1 100000) 3 rfl
      (by decide) (by decide)⟩

theorem isDigit_ne_special {c : Char} (h : c.isDigit = true) :
    c ≠ '+' ∧ c ≠ '-' ∧ c ≠ '.' := by
  refine ⟨fun he => ?_, fun he => ?_, fun he => ?_⟩ <;>
    (subst he; exact absurd h (by decide))

theorem takeWhile_head_stop {p : Char → Bool} : ∀ (rest : List Char),
    (∀ c, rest.head? = some c → p c = false) →
    rest.takeWhile p = [] ∧ rest.dropWhile p = rest
  | [], _ => ⟨rfl, rfl⟩
  | c :: t, h => by
    have hc := h c rfl
    rw [List.takeWhile_cons, List.dropWhile_cons, hc]
    exact ⟨rfl, rfl⟩

theorem qadd_div_mod (n p : ℕ) :
    qadd (qofNat (n / 10 ^ p)) (mkRat ((n % 10 ^ p : ℕ) : ℤ) (10 ^ p)) =
      ((n : ℕ) : ℚ) / (10 : ℚ) ^ p := by
  rw [qadd_eq, qofNat_eq, mkRat_eq_div]
  have hcast : ((10 ^ p : ℕ) : ℚ) = (10 : ℚ) ^ p := by push_cast; rfl
  rw [hcast]
  have h10 : (10 : ℚ) ^ p ≠ 0 := by positivity
  rw [eq_div_iff h10, add_mul, div_mul_cancel₀ _ h10]
  have hn : n / 10 ^ p * 10 ^ p + n % 10 ^ p = n := by
    rw [mul_comm]
    exact Nat.div_add_mod n (10 ^ p)
  push_cast
  rw [show ((((n : ℤ) % 10 ^ p : ℤ)) : ℚ) = ((n % 10 ^ p : ℕ) : ℚ) from by norm_cast]
  rw [show ((10 : ℚ) ^ p) = ((10 ^ p : ℕ) : ℚ) from by push_cast; rfl]
  rw [← Nat.cast_mul, ← Nat.cast_add, hn]

theorem parseMantissa_format (ipn fr p : ℕ) (rest : List Char) (hfr : fr < 10 ^ p)
    (hrest : ∀ c, rest.head? = some c → c.isDigit = false ∧ c ≠ '.') :
    parseMantissa ((natDigits ipn ++
        (if p = 0 then [] else '.' :: padDigits p fr)) ++ rest) =
      some (qadd (qofNat ipn) (mkRat fr (10 ^ p)), rest) := by
  have hstop := takeWhile_head_stop rest (fun c hc => (hrest c hc).1)
  have hdigits := natDigits_isDigit ipn
  by_cases hp : p = 0
  · subst hp
    rw [if_pos rfl, List.append_nil]
    rw [parseMantissa]
    have htw : (natDigits ipn ++ rest).takeWhile Char.isDigit = natDigits ipn ++ [] := by
      rw [List.takeWhile_append_of_pos hdigits, hstop.1]
    have hdw : (natDigits ipn ++ rest).dropWhile Char.isDigit = rest := by
      rw [List.dropWhile_append_of_pos hdigits, hstop.2]
    simp only [htw, hdw, List.append_nil]
    have hnodot : ¬ rest.head? = some '.' := by
      intro hc
      exact (hrest '.' hc).2 rfl
    rw [if_neg hnodot, if_neg (by
      simp only [List.isEmpty_iff]
      exact natDigits_ne_nil ipn)]
    rw [natDigits_val]
    have hfr0 : fr = 0 := by omega
    subst hfr0
    simp [qadd_eq, mkRat_eq_div]
  · rw [if_neg hp, List.append_assoc, List.cons_append]
    rw [parseMantissa]
    have hpad := padDigits_isDigit p fr hfr
    have htw : (natDigits ipn ++ ('.' :: (padDigits p fr ++ rest))).takeWhile Char.isDigit =
        natDigits ipn ++ [] := by
      rw [List.takeWhile_append_of_pos hdigits,
        List.takeWhile_cons_of_neg (by decide : ¬ Char.isDigit '.')]
    have hdw : (natDigits ipn ++ ('.' :: (padDigits p fr ++ rest))).dropWhile Char.isDigit =
        '.' :: (padDigits p fr ++ rest) := by
      rw [List.dropWhile_append_of_pos hdigits,
        List.dropWhile_cons_of_neg (by decide : ¬ Char.isDigit '.')]
    simp only [htw, hdw, List.append_nil, List.head?_cons, List.tail_cons]
    rw [if_pos trivial]
    have htw2 : (padDigits p fr ++ rest).takeWhile Char.isDigit = padDigits p fr ++ [] := by
      rw [List.takeWhile_append_of_pos hpad, hstop.1]
    have hdw2 : (padDigits p fr ++ rest).dropWhile Char.isDigit = rest := by
      rw [List.dropWhile_append_of_pos hpad, hstop.2]
    simp only [htw2, hdw2, List.append_nil]
    rw [if_neg (by
      simp only [Bool.and_eq_true, List.isEmpty_iff]
      intro hcon
      exact natDigits_ne_nil ipn hcon.1)]
    rw [natDigits_val, padDigits_val p fr hfr, padDigits_length]

theorem splitSign_neg (r : List Char) : splitSign ('-' :: r) = (true, r) := by
  rw [splitSign, if_neg (by decide), if_pos rfl]

theorem splitSign_digit {c : Char} (h : c.isDigit = true) (r : List Char) :
    splitSign (c :: r) = (false, c :: r) := by
  rcases isDigit_ne_special h with ⟨h1, h2, _⟩
  rw [splitSign, if_neg h1, if_neg h2]

theorem parseFloat_format_core (x : ℚ) (p : ℕ) (rest : List Char)
    (hrest : ∀ c, rest.head? = some c → c.isDigit = false ∧ c ≠ '.') :
    parseFloat? (formatFixed x p ++ rest) =
      match parseExpPart rest with
      | some e => some (if x < 0 then
          qneg (qmul (qadd (qofNat (halfEvenRound (qmul (qabs x) (pow10 (p : ℤ))) / 10 ^ p))
            (mkRat ((halfEvenRound (qmul (qabs x) (pow10 (p : ℤ))) % 10 ^ p : ℕ) : ℤ)
              (10 ^ p))) (pow10 e))
        else qmul (qadd (qofNat (halfEvenRound (qmul (qabs x) (pow10 (p : ℤ))) / 10 ^ p))
            (mkRat ((halfEvenRound (qmul (qabs x) (pow10 (p : ℤ))) % 10 ^ p : ℕ) : ℤ)
              (10 ^ p))) (pow10 e))
      | Option.none => Option.none := by
  have hmant : parseMantissa ((natDigits (halfEvenRound (qmul (qabs x) (pow10 (p : ℤ))) / 10 ^ p) ++
      (if p = 0 then []
       else '.' :: padDigits p (halfEvenRound (qmul (qabs x) (pow10 (p : ℤ))) % 10 ^ p))) ++ rest) =
      some (qadd (qofNat (halfEvenRound (qmul (qabs x) (pow10 (p : ℤ))) / 10 ^ p))
        (mkRat ((halfEvenRound (qmul (qabs x) (pow10 (p : ℤ))) % 10 ^ p : ℕ) : ℤ) (10 ^ p)),
        rest) :=
    parseMantissa_format _ _ p rest (Nat.mod_lt _ (by positivity)) hrest
  by_cases hx : x < 0
  · have hform : formatFixed x p ++ rest =
        '-' :: ((natDigits (halfEvenRound (qmul (qabs x) (pow10 (p : ℤ))) / 10 ^ p) ++
          (if p = 0 then []
           else '.' :: padDigits p (halfEvenRound (qmul (qabs x) (pow10 (p : ℤ))) % 10 ^ p))) ++
          rest) := by
      rw [formatFixed, if_pos hx]
      rfl
    rw [hform, parseFloat?, splitSign_neg, hmant]
    rcases hexp : parseExpPart rest with _ | e <;> simp [hexp, hx]
  · rcases hhead : natDigits (halfEvenRound (qmul (qabs x) (pow10 (p : ℤ))) / 10 ^ p)
        with _ | ⟨c, t⟩
    · exact absurd hhead (natDigits_ne_nil _)
    · have hcdigit : c.isDigit = true := by
        have := natDigits_isDigit (halfEvenRound (qmul (qabs x) (pow10 (p : ℤ))) / 10 ^ p) c
        rw [hhead] at this
        exact this (List.mem_cons_self c t)
      have hform : formatFixed x p ++ rest =
          c :: (t ++
            (if p = 0 then []
             else '.' :: padDigits p (halfEvenRound (qmul (qabs x) (pow10 (p : ℤ))) % 10 ^ p)) ++
            rest) := by
        rw [formatFixed, if_neg hx, hhead]
        simp
      rw [hform, parseFloat?, splitSign_digit hcdigit]
      have hmant2 : parseMantissa (c :: (t ++
          (if p = 0 then []
           else '.' :: padDigits p (halfEvenRound (qmul (qabs x) (pow10 (p : ℤ))) % 10 ^ p)) ++
          rest)) =
          some (qadd (qofNat (halfEvenRound (qmul (qabs x) (pow10 (p : ℤ))) / 10 ^ p))
            (mkRat ((halfEvenRound (qmul (qabs x) (pow10 (p : ℤ))) % 10 ^ p : ℕ) : ℤ) (10 ^ p)),
            rest) := by
        rw [← hmant, hhead]
        congr 1
      rw [hmant2]
      rcases hexp : parseExpPart rest with _ | e <;> simp [hexp, hx]

theorem parseFloat_formatFixed (x : ℚ) (p : ℕ) :
    parseFloat? (formatFixed x p) = some (renderedValue x p) := by
  have h := parseFloat_format_core x p [] (fun c hc => by simp at hc)
  rw [List.append_nil] at h
  rw [h, show parseExpPart [] = some 0 from rfl]
  have hval : qmul (qadd (qofNat (halfEvenRound (qmul (qabs x) (pow10 (p : ℤ))) / 10 ^ p))
      (mkRat ((halfEvenRound (qmul (qabs x) (pow10 (p : ℤ))) % 10 ^ p : ℕ) : ℤ) (10 ^ p)))
      (pow10 0) =
      ((halfEvenRound (qmul (qabs x) (pow10 (p : ℤ))) : ℕ) : ℚ) / (10 : ℚ) ^ p := by
    rw [qmul_eq, show pow10 0 = (1 : ℚ) from by decide, mul_one, qadd_div_mod]
  show some (if x < 0 then
      qneg (qmul (qadd (qofNat (halfEvenRound (qmul (qabs x) (pow10 (p : ℤ))) / 10 ^ p))
        (mkRat ((halfEvenRound (qmul (qabs x) (pow10 (p : ℤ))) % 10 ^ p : ℕ) : ℤ) (10 ^ p)))
        (pow10 0))
    else qmul (qadd (qofNat (halfEvenRound (qmul (qabs x) (pow10 (p : ℤ))) / 10 ^ p))
        (mkRat ((halfEvenRound (qmul (qabs x) (pow10 (p : ℤ))) % 10 ^ p : ℕ) : ℤ) (10 ^ p)))
        (pow10 0)) = some (renderedValue x p)
  rw [renderedValue]
  by_cases hx : x < 0
  · rw [if_pos hx, if_pos hx]
    rw [qneg_eq, hval]
  · rw [if_neg hx, if_neg hx, hval]

theorem parseFloat_formatFixed_space (x : ℚ) (p : ℕ) :
    parseFloat? (formatFixed x p ++ [' ']) = Option.none := by
  have h := parseFloat_format_core x p [' ']
    (fun c hc => by
      simp only [List.head?_cons, Option.some_inj] at hc
      subst hc
      exact ⟨by decide, by decide⟩)
  rw [h, show parseExpPart [' '] = Option.none from by decide]

theorem qmul_abs_pow10_eq (x : ℚ) (p : ℕ) :
    qmul (qabs x) (pow10 (p : ℤ)) = |x| * (10 : ℚ) ^ p := by
  rw [qmul_eq, qabs_eq, pow10_eq, zpow_natCast]

theorem renderedValue_bound (x : ℚ) (p : ℕ) :
    |renderedValue x p - x| ≤ 1 / (2 * (10 : ℚ) ^ p) := by
  have h10 : (0 : ℚ) < (10 : ℚ) ^ p := by positivity
  have hy : (0 : ℚ) ≤ qmul (qabs x) (pow10 (p : ℤ)) := by
    rw [qmul_abs_pow10_eq]
    positivity
  have hb := halfEvenRound_bound hy
  rw [qmul_abs_pow10_eq] at hb
  have key : abs (((halfEvenRound (qmul (qabs x) (pow10 (p : ℤ))) : ℕ) : ℚ) / (10 : ℚ) ^ p
      - |x|) ≤ 1 / (2 * (10 : ℚ) ^ p) := by
    rw [div_sub' _ _ _ h10.ne', abs_div, abs_of_pos h10, div_le_div_iff h10 (by positivity)]
    calc abs (((halfEvenRound (qmul (qabs x) (pow10 (p : ℤ))) : ℕ) : ℚ) - (10 : ℚ) ^ p * |x|) *
          (2 * (10 : ℚ) ^ p)
        ≤ (1 / 2) * (2 * (10 : ℚ) ^ p) := by
          apply mul_le_mul_of_nonneg_right _ (by positivity)
          rw [show ((10 : ℚ) ^ p * |x|) = |x| * (10 : ℚ) ^ p from mul_comm _ _]
          rw [qmul_abs_pow10_eq]
          exact hb
    _ = 1 * (10 : ℚ) ^ p := by ring
  rw [renderedValue]
  by_cases hx : x < 0
  · rw [if_pos hx]
    have hxabs : |x| = -x := abs_of_neg hx
    calc |-(((halfEvenRound (qmul (qabs x) (pow10 (p : ℤ))) : ℕ) : ℚ) / (10 : ℚ) ^ p) - x|
        = abs (((halfEvenRound (qmul (qabs x) (pow10 (p : ℤ))) : ℕ) : ℚ) / (10 : ℚ) ^ p
            - |x|) := by
          rw [hxabs]
          rw [show -(((halfEvenRound (qmul (qabs x) (pow10 (p : ℤ))) : ℕ) : ℚ) / (10 : ℚ) ^ p) - x
            = -(((halfEvenRound (qmul (qabs x) (pow10 (p : ℤ))) : ℕ) : ℚ) / (10 : ℚ) ^ p - -x)
            from by ring]
          rw [abs_neg]
    _ ≤ 1 / (2 * (10 : ℚ) ^ p) := key
  · rw [if_neg hx]
    have hxabs : |x| = x := abs_of_nonneg (not_lt.mp hx)
    rw [show ((halfEvenRound (qmul (qabs x) (pow10 (p : ℤ))) : ℕ) : ℚ) / (10 : ℚ) ^ p - x
      = ((halfEvenRound (qmul (qabs x) (pow10 (p : ℤ))) : ℕ) : ℚ) / (10 : ℚ) ^ p - |x|
      from by rw [hxabs]]
    exact key

theorem stripLoop_headD {m : String × ℤ} (hm : m ∈ METRIC_PREFIXES) (l : List Char) :
    stripLoop METRIC_PREFIXES (l ++ [m.1.data.headD ' ']) = (l, pow10 m.2) := by
  have hlast : ∀ c : Char, (l ++ [c]).getLast? = some c := fun c => List.getLast?_concat l
  fin_cases hm <;>
    simp [stripLoop, METRIC_PREFIXES, hlast, List.dropLast_concat]

theorem stripLoop_space (l : List Char) :
    stripLoop METRIC_PREFIXES (l ++ [' ']) = (l ++ [' '], 1) := by
  have hlast : (l ++ [' ']).getLast? = some ' ' := List.getLast?_concat l
  simp [stripLoop, METRIC_PREFIXES, hlast]

theorem replaceCommas_format_concat (x : ℚ) (p : ℕ) {c : Char} (hc : c ≠ ',') :
    replaceCommas (formatFixed x p ++ [c]) = formatFixed x p ++ [c] := by
  apply replaceCommas_eq_self
  intro hmem
  rcases List.mem_append.mp hmem with hmem | hmem
  · exact formatFixed_not_mem (by decide) (by decide) (by decide) x p hmem
  · rw [List.mem_singleton] at hmem
    exact hc hmem.symm

/-- Counterexample to claim C1 at its concrete input: the finite value
`5` with `sf = 3` displays as `"5.00 "` (no prefix matches, a blank is
appended) and parsing that string fails, so the round-trip yields
`Absent` — contradicting "the round-trip never yields Absent for finite
`v`". -/
theorem c1_counterexample_roundtrip_absent :
    Num.parse (Num.display (Num.In 5) 3) = Num.none := by decide

/-- Claim C1 (amended): for a present value `v` whose magnitude is
scaled into `[1, 1000)` by some prefix-table entry `m`, the round-trip
`parse(display(v, sf))` yields a present `Input` number within the
rounding error of the displayed precision — at most half a unit of the
last rendered fractional digit times the prefix factor,
`10^(m.2 - floatingFigures) / 2`.  When no table entry matches (which
includes `v = 0` and every `|v| ∉ [10⁻¹⁵, 10¹⁸)` band covered by the
table), `display` appends a blank and Rust float parsing rejects the
trailing space, so the round-trip yields `Absent`. -/
theorem c1_roundtrip_within_prefix_range :
    (∀ (t : Num) (v : ℚ) (sf : ℕ) (m : String × ℤ), t.as_option = some v →
      specSelect v = some m →
      ∃ w : ℚ, Num.parse (Num.display t sf) = Num.In w ∧
        |w - v| ≤ pow10 (m.2 - (floatingFiguresFor (qdiv v (pow10 m.2)) sf : ℤ)) / 2) ∧
    (∀ (t : Num) (v : ℚ) (sf : ℕ), t.as_option = some v →
      specSelect v = Option.none →
      Num.parse (Num.display t sf) = Num.none) := by
  constructor
  · intro t v sf m hv hm
    have hmem : m ∈ METRIC_PREFIXES := List.mem_of_find?_eq_some hm
    have hdisp : Num.display t sf = String.mk (formatFixed (qdiv v (pow10 m.2))
        (floatingFiguresFor (qdiv v (pow10 m.2)) sf) ++ [m.1.data.headD ' ']) := by
      rw [display_present hv sf, scanPrefixes_eq_find]
      rw [specSelect] at hm
      rw [hm]
    have hcomma : m.1.data.headD ' ' ≠ ',' := by
      have hall : ∀ m' ∈ METRIC_PREFIXES, m'.1.data.headD ' ' ≠ ',' := by decide
      exact hall m hmem
    refine ⟨qmul (renderedValue (qdiv v (pow10 m.2))
      (floatingFiguresFor (qdiv v (pow10 m.2)) sf)) (pow10 m.2), ?_, ?_⟩
    · rw [hdisp, Num.parse]
      show parseCore (replaceCommas (formatFixed (qdiv v (pow10 m.2))
        (floatingFiguresFor (qdiv v (pow10 m.2)) sf) ++ [m.1.data.headD ' '])) = _
      rw [replaceCommas_format_concat _ _ hcomma, parseCore, stripLoop_headD hmem,
        parseFloat_formatFixed]
    · set scaled := qdiv v (pow10 m.2) with hscaled
      set ff := floatingFiguresFor scaled sf with hff
      have hvs : scaled * pow10 m.2 = v := by
        rw [hscaled, qdiv_eq, div_mul_cancel₀ _ (pow10_ne_zero m.2)]
      have hbound := renderedValue_bound scaled ff
      have hpow : (0 : ℚ) < pow10 m.2 := pow10_pos m.2
      calc |qmul (renderedValue scaled ff) (pow10 m.2) - v|
          = |renderedValue scaled ff - scaled| * pow10 m.2 := by
            rw [qmul_eq, ← hvs, ← sub_mul, abs_mul, abs_of_pos hpow]
      _ ≤ (1 / (2 * (10 : ℚ) ^ ff)) * pow10 m.2 := by
            apply mul_le_mul_of_nonneg_right hbound hpow.le
      _ = pow10 (m.2 - (ff : ℤ)) / 2 := by
            rw [show m.2 - (ff : ℤ) = m.2 + -(ff : ℤ) from by ring, pow10_add,
              pow10_neg_natCast]
            have hcast : ((10 ^ ff : ℕ) : ℚ) = (10 : ℚ) ^ ff := by push_cast; rfl
            rw [hcast]
            ring
  · intro t v sf hv hm
    have hdisp : Num.display t sf = String.mk (formatFixed v
        (floatingFiguresFor v sf) ++ [' ']) := by
      rw [display_present hv sf, scanPrefixes_eq_find]
      rw [specSelect] at hm
      rw [hm]
    rw [hdisp, Num.parse]
    show parseCore (replaceCommas (formatFixed v (floatingFiguresFor v sf) ++ [' '])) = _
    rw [replaceCommas_format_concat _ _ (by decide), parseCore, stripLoop_space,
      parseFloat_formatFixed_space]

/-- Witness for the amended C1 at `v = 1234`, `sf = 3`: the selected
entry is `("k", 3)`, and the round-trip parses back to a present input
value within half a unit of the last displayed digit (`1234 → "1.23k" →
1230`, error `4 ≤ 5`). -/
theorem c1_roundtrip_witness :
    (Num.In (1234 : ℚ)).as_option = some (1234 : ℚ) ∧
    specSelect (1234 : ℚ) = some ("k", 3) ∧
    ∃ w : ℚ, Num.parse (Num.display (Num.In (1234 : ℚ)) 3) = Num.In w ∧
      |w - (1234 : ℚ)| ≤ pow10 (("k", (3 : ℤ)).2 -
        (floatingFiguresFor (qdiv (1234 : ℚ) (pow10 ("k", (3 : ℤ)).2)) 3 : ℤ)) / 2 :=
  ⟨rfl, by decide,
    c1_roundtrip_within_prefix_range.1 (Num.In (1234 : ℚ)) (1234 : ℚ) 3 ("k", (3 : ℤ))
      rfl (by decide)⟩

end Motorcalc
